import Mathlib

/-
Verification development for the `tuple_vector` SoA container
(structure-of-arrays storage engine, column leaves, layout calculator and
random-access iterator).

Modelling conventions:
  * `std::size_t` is modelled as `Nat` with arithmetic taken `% 2 ^ 64`
    (`szMod`) wherever the C++ computation can wrap.
  * A column's storage is a total function `Nat → α` from slot index to the
    value stored in that slot; "destroying" an element does not change the
    function (destroyed slots are simply outside the live range `[0, size)`).
  * The sequential loops of `std::move` / `std::move_backward` /
    `std::fill` are modelled as the corresponding sequential recursions so
    that overlap behaviour is captured faithfully.
  * Pointers are modelled as `Nat` identities; an allocation is an identity
    `Nat`; the null pointer is `Option.none`.
-/

set_option maxRecDepth 2000

namespace TupleVector

/-- The modulus of `std::size_t` on the 64-bit targets the code is built for. -/

def szMod : Nat := 2 ^ 64

/-- `size_t` addition (wraps modulo `2 ^ 64`). -/

def uadd (x y : Nat) : Nat := (x + y) % szMod

/-- `size_t` subtraction (wraps modulo `2 ^ 64`). -/

def usub (x y : Nat) : Nat := (x + (szMod - y % szMod)) % szMod

/-- Writing value `v` into slot `i` of a column. -/

def setSlot {α : Type} (d : Nat → α) (i : Nat) (v : α) : Nat → α :=
  fun j => if j = i then v else d j

/-- `std::move(first, last, d_first)` / `std::uninitialized_move` over one
column: copies `n` slots starting at `src` to `dst`, front element first,
each step reading the current (possibly already written) buffer. -/

def stdMove {α : Type} (d : Nat → α) (src dst : Nat) : Nat → (Nat → α)
  | 0 => d
  | n + 1 => stdMove (setSlot d dst (d src)) (src + 1) (dst + 1) n

/-- `std::move_backward(first, last, d_last)` over one column: copies `n`
slots starting at `src` to `dst`, back element first. -/

def moveBackward {α : Type} (d : Nat → α) (src dst : Nat) : Nat → (Nat → α)
  | 0 => d
  | n + 1 => moveBackward (setSlot d (dst + n) (d (src + n))) src dst n

/-- `std::fill` / `std::uninitialized_fill(_n)` over one column: writes `v`
into the `n` slots starting at `pos`. -/

def fillN {α : Type} (d : Nat → α) (pos : Nat) (v : α) : Nat → (Nat → α)
  | 0 => d
  | n + 1 => fillN (setSlot d pos v) (pos + 1) v n

/-- `std::uninitialized_move` / `std::uninitialized_copy` from one buffer
into a freshly allocated, disjoint buffer: the `n` slots starting at `sb` of
`src` land at `db` of `dst`. -/

def copyAcross {α : Type} (src dst : Nat → α) (sb db n : Nat) : Nat → α :=
  fun j => if db ≤ j ∧ j < db + n then src (sb + (j - db)) else dst j

/-!  Layout calculator (`TupleRecurser`).  A declared column type is
abstracted by its `sizeof` and `alignof`. -/

/-- `sizeof` and `alignof` of one declared column type. -/

structure ColTy where
  sz : Nat
  al : Nat

/-- `TupleRecurser::CalculatAllocationOffset`:
`(offset + alignof(T) - 1) & (~alignof(T) + 1)` computed on 64-bit
`size_t`, where `~alignof(T) + 1` is the two's complement `2^64 - alignof(T)`. -/

def CalculatAllocationOffset (offset al : Nat) : Nat :=
  Nat.land (offset + al - 1) (szMod - al)

/-- `TupleRecurser::CalculateAllocationSize`:
`CalculatAllocationOffset(offset) + sizeof(T) * capacity`. -/

def CalculateAllocationSize (offset : Nat) (c : ColTy) (capacity : Nat) : Nat :=
  CalculatAllocationOffset offset c.al + c.sz * capacity

/-- The per-column base offsets produced by `TupleRecurser::DoAllocate`'s
recursion: each level stores its `allocationOffset` into `ppNewLeaf[I]` and
recurses with its `allocationSize` as the next accumulated offset. -/

def layoutOffsets (capacity : Nat) : List ColTy → Nat → List Nat
  | [], _ => []
  | c :: rest, offset =>
      CalculatAllocationOffset offset c.al ::
        layoutOffsets capacity rest (CalculateAllocationSize offset c capacity)

/-- `TupleRecurser::GetTotalAllocationSize`. -/

def GetTotalAllocationSize (capacity : Nat) : List ColTy → Nat → Nat
  | [], offset => offset
  | c :: rest, offset =>
      GetTotalAllocationSize capacity rest (CalculateAllocationSize offset c capacity)

/-- `TupleRecurser<>::DoAllocate`'s pointer policy:
`capacity ? allocate(offset) : nullptr` — a zero capacity performs no
allocation and yields the null pointer.  `allocId` stands for the identity
the allocator would return for a nonzero request. -/

def doAllocatePtr (capacity allocId : Nat) : Option Nat :=
  if capacity ≠ 0 then some allocId else none

/-- `align_up` as the spec words it (modelled from the spec, for comparison
with the code): round `offset` up to the least multiple of `al` that is
at least `offset`. -/

def alignUp (offset al : Nat) : Nat := al * ((offset + al - 1) / al)

/-- The offset recursion exactly as the spec words it (modelled from the
spec, for comparison with the code): `offsetᵢ` aligns the end of column
`i-1`'s sub-region up to `alignof(columnᵢ)`. -/

def specOffsets (capacity : Nat) : List ColTy → Nat → List Nat
  | [], _ => []
  | c :: rest, offset =>
      alignUp offset c.al ::
        specOffsets capacity rest (alignUp offset c.al + c.sz * capacity)

/-- Each column's offset is a multiple of that column's alignment. -/

def offsetsAligned : List ColTy → List Nat → Prop
  | c :: cs, o :: os => c.al ∣ o ∧ offsetsAligned cs os
  | _, _ => True

/-- Consecutive columns' sub-regions (each `sizeof * capacity` bytes) do not
overlap: the next offset is at or beyond the end of the previous region. -/

def noOverlap (capacity : Nat) : List ColTy → List Nat → Prop
  | c :: cs, o :: o2 :: os => o + c.sz * capacity ≤ o2 ∧ noOverlap capacity cs (o2 :: os)
  | _, _ => True

/-- All alignments are powers of two (always true of C++ `alignof`) and the
accumulated offsets stay below `2^64`, so the masked offset arithmetic does
not wrap. -/

def layoutOk (capacity : Nat) : List ColTy → Nat → Prop
  | [], _ => True
  | c :: rest, offset =>
      (∃ k, c.al = 2 ^ k) ∧ offset + c.al - 1 < szMod ∧
        layoutOk capacity rest (CalculateAllocationSize offset c capacity)

/-!  Growth capacities (`TupleVecImpl`). -/

/-- `TupleVecImpl::GetNewCapacity`:
`(oldNumCapacity > 0) ? (2 * oldNumCapacity) : 1`. -/

def GetNewCapacity (oldNumCapacity : Nat) : Nat :=
  if oldNumCapacity > 0 then 2 * oldNumCapacity else 1

/-- Capacity effect of `TupleVecImpl::DoGrow` (the growth path of
`push_back`, `push_back()`, `push_back_uninitialized` and `emplace_back`):
when `requiredCapacity > oldNumCapacity` it reallocates to
`GetNewCapacity(requiredCapacity)` — note the argument is the *required*
capacity, not the old capacity. -/

def DoGrowCap (oldNumCapacity requiredCapacity : Nat) : Nat :=
  if requiredCapacity > oldNumCapacity then GetNewCapacity requiredCapacity
  else oldNumCapacity

/-- Capacity effect of the growth paths of `resize`, `insert` and `emplace`:
`max(GetNewCapacity(oldNumCapacity), requiredCapacity)` when
`requiredCapacity > oldNumCapacity`. -/

def resizeGrowCap (oldNumCapacity requiredCapacity : Nat) : Nat :=
  if requiredCapacity > oldNumCapacity then
    max (GetNewCapacity oldNumCapacity) requiredCapacity
  else oldNumCapacity

/-- The growth formula as the spec words it (modelled from the spec, for
comparison with the code): `max(2 × oldCapacity, requiredCapacity)`, with
`oldCapacity = 0` growing to 1. -/

def specGrowCap (oldCapacity requiredCapacity : Nat) : Nat :=
  max (if oldCapacity = 0 then 1 else 2 * oldCapacity) requiredCapacity

/-- The `(size, capacity)` evolution of one `push_back`: the element count is
bumped first, then `DoGrow(oldNumElements, oldNumCapacity, newNumElements)`
runs with `requiredCapacity = newNumElements`. -/

def pushBackStep (sc : Nat × Nat) : Nat × Nat :=
  (sc.1 + 1, DoGrowCap sc.2 (sc.1 + 1))

/-- `(size, capacity)` after `n` sequential `push_back`s starting from an
empty, capacity-0 container. -/

def pushBackN : Nat → Nat × Nat
  | 0 => (0, 0)
  | n + 1 => pushBackStep (pushBackN n)

/-!  Random-access iterator (`TupleVecIter`): a persistent `size_t` index
plus a snapshot of the `N` column base pointers taken at construction. -/

structure TupleVecIter where
  mIndex : Nat
  mpData : List Nat

/-- `operator+=(difference_type n)`: `mIndex += n` (`size_t` arithmetic);
the pointer snapshot is carried along unchanged. -/

def iterAddAssign (it : TupleVecIter) (n : Nat) : TupleVecIter :=
  { it with mIndex := uadd it.mIndex n }

/-- `operator+(iter, n)`: copies the iterator and applies `+=`. -/

def iterAdd (it : TupleVecIter) (n : Nat) : TupleVecIter := iterAddAssign it n

/-- The friend `operator+(n, iter)`: copies `rhs` and applies `+=`. -/

def iterAddLeft (n : Nat) (rhs : TupleVecIter) : TupleVecIter := iterAddAssign rhs n

/-- `operator-(const this_type& rhs)`: `mIndex - rhs.mIndex` on `size_t`
(the iterator difference; `difference_type` is `std::size_t`). -/

def iterDiff (a b : TupleVecIter) : Nat := usub a.mIndex b.mIndex

/-- `operator==`: `mIndex == other.mIndex && mpData[0] == other.mpData[0]`
— only the index and the column-0 pointer are compared. -/

def iterEq (a b : TupleVecIter) : Bool :=
  a.mIndex == b.mIndex && a.mpData.getD 0 0 == b.mpData.getD 0 0

/-- `operator!=`: `mIndex != other.mIndex || mpData[0] != other.mpData[0]`. -/

def iterNe (a b : TupleVecIter) : Bool :=
  a.mIndex != b.mIndex || a.mpData.getD 0 0 != b.mpData.getD 0 0

/-!  Storage engine (`TupleVecImpl`).  All columns are modelled over one
value type `α` (the heterogeneity of the `Ts...` pack plays no role in the
claims: every engine operation acts on each column independently through the
same index arithmetic).  A column leaf (`TupleVecLeaf`) is its typed base
pointer, modelled as a `Nat` identity, plus the slot contents reachable
through it.  The byte-size bookkeeping `mDataSizeAndAllocator` only feeds
`deallocate` calls and is not modelled; deallocations are recorded in a
`freed` log instead. -/

structure Leaf (α : Type) where
  ptr : Nat
  d : Nat → α

structure Engine (α : Type) where
  mpData : Option Nat
  mNumElements : Nat
  mNumCapacity : Nat
  cols : List (Leaf α)
  freed : List Nat

/-- `begin()` / `cbegin()`: an iterator at index 0 whose snapshot holds every
column leaf's current pointer. -/

def beginIter {α : Type} (e : Engine α) : TupleVecIter :=
  ⟨0, e.cols.map Leaf.ptr⟩

/-- The values of the `n` consecutive slots starting at `a` of one column. -/

def segMap {α : Type} (d : Nat → α) (a : Nat) : Nat → List α
  | 0 => []
  | n + 1 => d a :: segMap d (a + 1) n

/-- The live contents of one column: the values of slots `[0, n)`. -/

def liveList {α : Type} (n : Nat) (d : Nat → α) : List α :=
  segMap d 0 n

/-- What `deallocate(mpData, ...)` releases: the allocation's identity, or
nothing when the pointer is null. -/

def freedOf : Option Nat → List Nat
  | some a => [a]
  | none => []

/-- `TupleVecImpl::clear`: destroys the live elements of every column and
zeroes `mNumElements`; capacity, the shared allocation and the leaf pointers
are untouched and nothing is deallocated (destruction does not change a
slot's modelled contents — the slots merely leave the live range). -/

def clear {α : Type} (e : Engine α) : Engine α :=
  { e with mNumElements := 0 }

/-- `TupleVecImpl::erase(first, last)`: under the guard `first != last`,
every column shifts `[lastIdx, oldNumElements)` down to `firstIdx` with
`std::move`, the trailing `[newNumElements, oldNumElements)` slots are
destroyed, and `begin() + first.mIndex` is returned.  The index of an
iterator within this container is recovered as `first - cbegin()`. -/

def erase {α : Type} (e : Engine α) (first last : TupleVecIter) :
    Engine α × TupleVecIter :=
  if iterNe first last then
    let firstIdx := iterDiff first (beginIter e)
    let lastIdx := iterDiff last (beginIter e)
    let oldNumElements := e.mNumElements
    let newNumElements := oldNumElements - (lastIdx - firstIdx)
    let e2 : Engine α :=
      { e with
        mNumElements := newNumElements,
        cols := e.cols.map fun lf =>
          { lf with d := stdMove lf.d lastIdx firstIdx (oldNumElements - lastIdx) } }
    (e2, iterAdd (beginIter e2) first.mIndex)
  else (e, iterAdd (beginIter e) first.mIndex)

/-- `TupleVecImpl::erase_unsorted(pos)`: every column moves the single slot
`[newNumElements, oldNumElements)` onto `pos - begin()`, the last slot is
destroyed, and `begin() + pos.mIndex` is returned. -/

def erase_unsorted {α : Type} (e : Engine α) (pos : TupleVecIter) :
    Engine α × TupleVecIter :=
  let oldNumElements := e.mNumElements
  let newNumElements := oldNumElements - 1
  let e2 : Engine α :=
    { e with
      mNumElements := newNumElements,
      cols := e.cols.map fun lf =>
        { lf with d := stdMove lf.d newNumElements (iterDiff pos (beginIter e)) 1 } }
  (e2, iterAdd (beginIter e2) pos.mIndex)

/-- `TupleVecLeaf::DoInsertAndFill(pos, n, numElements, arg)`.  The code
first copies `arg` into a local `temp` (values are pure here, so the copy is
the value itself).  In the `n < nExtra` branch the `move_backward` writes
`[pos + n, numElements)` — its destination start equals `pos + n` because
`d_last` is `pDataEnd` and the range length is `numElements - n - pos`. -/

def DoInsertAndFill {α : Type} (d : Nat → α) (pos n numElements : Nat) (v : α) :
    Nat → α :=
  let nExtra := numElements - pos
  if n < nExtra then
    let d1 := stdMove d (numElements - n) numElements n
    let d2 := moveBackward d1 pos (pos + n) (numElements - n - pos)
    fillN d2 pos v n
  else
    let d1 := fillN d numElements v (n - nExtra)
    let d2 := stdMove d1 pos (numElements + (n - nExtra)) nExtra
    fillN d2 pos v (numElements - pos)

/-- `TupleVecImpl::insert(pos, n, args...)`.  `vals` is the per-column fill
value (`args...`, one per column); `freshAllocId`, `freshPtrs` and
`freshBufs` stand for the allocation identity, per-column base pointers and
initial unconstructed contents that `TupleRecurser::DoAllocate` hands back
if the reallocating branch runs. -/

def insert {α : Type} (e : Engine α) (pos : TupleVecIter) (n : Nat) (vals : List α)
    (freshAllocId : Nat) (freshPtrs : List Nat) (freshBufs : List (Nat → α)) :
    Engine α × TupleVecIter :=
  let firstIdx := iterDiff pos (beginIter e)
  let lastIdx := firstIdx + n
  let oldNumElements := e.mNumElements
  let newNumElements := oldNumElements + n
  let oldNumCapacity := e.mNumCapacity
  let e2 : Engine α :=
    if newNumElements > oldNumCapacity ∨ firstIdx ≠ oldNumElements then
      if newNumElements > oldNumCapacity then
        { mpData := some freshAllocId,
          mNumElements := newNumElements,
          mNumCapacity := max (GetNewCapacity oldNumCapacity) newNumElements,
          cols := ((e.cols.zip vals).zip (freshPtrs.zip freshBufs)).map fun pq =>
            { ptr := pq.2.1,
              d := fillN
                (copyAcross pq.1.1.d
                  (copyAcross pq.1.1.d pq.2.2 0 0 firstIdx)
                  firstIdx lastIdx (oldNumElements - firstIdx))
                firstIdx pq.1.2 (lastIdx - firstIdx) },
          freed := e.freed ++ freedOf e.mpData }
      else
        { e with
          mNumElements := newNumElements,
          cols := (e.cols.zip vals).map fun p =>
            { p.1 with d := DoInsertAndFill p.1.d firstIdx n oldNumElements p.2 } }
    else
      { e with
        mNumElements := newNumElements,
        cols := (e.cols.zip vals).map fun p =>
          { p.1 with d := fillN p.1.d oldNumElements p.2 (newNumElements - oldNumElements) } }
  (e2, iterAdd (beginIter e2) firstIdx)

/-- `TupleVecImpl::push_back(args...)` with an explicit allocation outcome.
The code sets `mNumElements = newNumElements` *before* calling `DoGrow`.
`alloc = none` models `allocate` throwing inside
`TupleRecurser::DoAllocate`: the exception propagates out of `push_back`
before anything else of `DoReallocate` has run, and `Except.error` carries
the state a caller that catches it observes.  `alloc = some (id, ptrs,
bufs)` supplies the fresh allocation; `DoGrow` then reallocates to
`GetNewCapacity(newNumElements)`, all columns relocate `[0, oldNumElements)`
into the new buffer, the old buffer is released, and the new element is
constructed at slot `oldNumElements`. -/

def push_back {α : Type} (e : Engine α) (vals : List α)
    (alloc : Option (Nat × List Nat × List (Nat → α))) :
    Except (Engine α) (Engine α) :=
  let oldNumElements := e.mNumElements
  let newNumElements := oldNumElements + 1
  let oldNumCapacity := e.mNumCapacity
  let e1 : Engine α := { e with mNumElements := newNumElements }
  if newNumElements > oldNumCapacity then
    match alloc with
    | none => Except.error e1
    | some (allocId, ptrs, bufs) =>
        Except.ok
          { mpData := some allocId,
            mNumElements := newNumElements,
            mNumCapacity := GetNewCapacity newNumElements,
            cols := ((e.cols.zip vals).zip (ptrs.zip bufs)).map fun pq =>
              { ptr := pq.2.1,
                d := setSlot (copyAcross pq.1.1.d pq.2.2 0 0 oldNumElements)
                  oldNumElements pq.1.2 },
            freed := e.freed ++ freedOf e.mpData }
  else
    Except.ok
      { e1 with
        cols := (e.cols.zip vals).map fun p =>
          { p.1 with d := setSlot p.1.d oldNumElements p.2 } }

/-- `TupleVecImpl::shrink_to_fit`: builds `temp` from move iterators —
`temp`'s `DoInitFromIterator` calls `DoConditionalReallocate(0, 0, size)`,
which allocates a buffer of capacity exactly `size` when `size > 0` and
leaves `temp` null with capacity 0 otherwise — swaps with `temp`, and lets
`temp`'s destructor release this container's previous allocation (its
destructor only calls `deallocate` on a non-null pointer).  Returns the
resulting engine and the number of `allocate` calls performed.  `junk` is
the unreachable contents behind a null leaf pointer. -/

def shrink_to_fit {α : Type} (e : Engine α) (freshAllocId : Nat)
    (freshPtrs : List Nat) (freshBufs : List (Nat → α)) (junk : Nat → α) :
    Engine α × Nat :=
  let n := e.mNumElements
  if 0 < n then
    ({ mpData := some freshAllocId,
       mNumElements := n,
       mNumCapacity := n,
       cols := (e.cols.zip (freshPtrs.zip freshBufs)).map fun pq =>
         { ptr := pq.2.1, d := copyAcross pq.1.d pq.2.2 0 0 n },
       freed := e.freed ++ freedOf e.mpData }, 1)
  else
    ({ mpData := none,
       mNumElements := 0,
       mNumCapacity := 0,
       cols := e.cols.map fun _ => { ptr := 0, d := junk },
       freed := e.freed ++ freedOf e.mpData }, 0)

/-- A concrete one-column engine: size 0, capacity 0, allocation id 5,
column pointer 100, all-zero column contents. -/

def engC2 : Engine Nat := Engine.mk (some 5) 0 0 [Leaf.mk 100 (fun _ => 0)] []

/-- A concrete one-column engine with `capacity == size == 1`: allocation
id 0, column pointer 100, contents 7 everywhere. -/

def engC8 : Engine Nat := Engine.mk (some 0) 1 1 [Leaf.mk 100 (fun _ => 7)] []

/-- A concrete one-column engine: size 2, capacity 4. -/

def engC10 : Engine Nat := Engine.mk (some 3) 2 4 [Leaf.mk 50 (fun _ => 1)] []

/-- The column contents 10, 20, 30, 40 (zero beyond the live range). -/

def colC3 : Nat → Nat := fun i => [10, 20, 30, 40].getD i 0

/-- A concrete one-column engine holding [10, 20, 30, 40]. -/

def engC3 : Engine Nat := Engine.mk (some 0) 4 4 [Leaf.mk 10 colC3] []

/-- The column contents 10, 20, 30 (zero beyond the live range). -/

def colC4 : Nat → Nat := fun i => [10, 20, 30].getD i 0

/-- A concrete one-column engine holding [10, 20, 30]. -/

def engC4 : Engine Nat := Engine.mk (some 0) 3 4 [Leaf.mk 10 colC4] []

/-- A concrete one-column engine holding [10, 20, 30] with spare capacity. -/

def engC5 : Engine Nat := Engine.mk (some 0) 3 8 [Leaf.mk 10 colC4] []

theorem setSlot_eq {α : Type} (d : Nat → α) (i : Nat) (v : α) (j : Nat) :
    setSlot d i v j = if j = i then v else d j := rfl

theorem stdMove_spec {α : Type} (d : Nat → α) (src dst n : Nat)
    (h : dst ≤ src ∨ src + n ≤ dst) (j : Nat) :
    stdMove d src dst n j =
      if dst ≤ j ∧ j < dst + n then d (src + (j - dst)) else d j := by
  induction n generalizing d src dst with
  | zero =>
    simp only [stdMove]
    split_ifs <;> first
      | rfl
      | omega
  | succ n ih =>
    have h' : dst + 1 ≤ src + 1 ∨ (src + 1) + n ≤ dst + 1 := by omega
    rw [stdMove, ih _ _ _ h']
    simp only [setSlot]
    split_ifs <;> first
      | rfl
      | (congr 1; omega)
      | omega

theorem moveBackward_spec {α : Type} (d : Nat → α) (src dst n : Nat)
    (h : src ≤ dst ∨ dst + n ≤ src) (j : Nat) :
    moveBackward d src dst n j =
      if dst ≤ j ∧ j < dst + n then d (src + (j - dst)) else d j := by
  induction n generalizing d with
  | zero =>
    simp only [moveBackward]
    split_ifs <;> first
      | rfl
      | omega
  | succ n ih =>
    have h' : src ≤ dst ∨ dst + n ≤ src := by omega
    rw [moveBackward, ih _ h']
    simp only [setSlot]
    split_ifs <;> first
      | rfl
      | (congr 1; omega)
      | omega

theorem fillN_spec {α : Type} (d : Nat → α) (pos : Nat) (v : α) (n j : Nat) :
    fillN d pos v n j = if pos ≤ j ∧ j < pos + n then v else d j := by
  induction n generalizing d pos with
  | zero =>
    simp only [fillN]
    split_ifs <;> first
      | rfl
      | omega
  | succ n ih =>
    rw [fillN, ih]
    simp only [setSlot]
    split_ifs <;> first
      | rfl
      | (congr 1; omega)
      | omega

theorem land_high_mask (x k : Nat) (hx : x < 2 ^ 64) :
    Nat.land x (szMod - 2 ^ k) = 2 ^ k * (x / 2 ^ k) := by
  have hsz : szMod = 2 ^ 64 := rfl
  by_cases hk : k ≤ 64
  · have hmask : szMod - 2 ^ k = (2 ^ (64 - k) - 1) <<< k := by
      rw [Nat.shiftLeft_eq, hsz]
      have h1 : 2 ^ (64 - k) * 2 ^ k = 2 ^ 64 := by
        rw [← pow_add]
        congr 1
        omega
      calc 2 ^ 64 - 2 ^ k = 2 ^ (64 - k) * 2 ^ k - 1 * 2 ^ k := by rw [h1, one_mul]
        _ = (2 ^ (64 - k) - 1) * 2 ^ k := by rw [Nat.sub_mul]
    have hrhs : 2 ^ k * (x / 2 ^ k) = (x >>> k) <<< k := by
      rw [Nat.shiftRight_eq_div_pow, Nat.shiftLeft_eq, Nat.mul_comm]
    rw [hmask, hrhs]
    show x &&& (2 ^ (64 - k) - 1) <<< k = x >>> k <<< k
    apply Nat.eq_of_testBit_eq
    intro i
    rw [Nat.testBit_land, Nat.testBit_shiftLeft, Nat.testBit_shiftLeft,
      Nat.testBit_two_pow_sub_one, Nat.testBit_shiftRight]
    by_cases hki : k ≤ i
    · have hi : k + (i - k) = i := by omega
      rw [hi]
      by_cases hi64 : i < 64
      · have hik : i - k < 64 - k := by omega
        simp [hki, hik]
      · have hxb : x.testBit i = false :=
          Nat.testBit_lt_two_pow
            (lt_of_lt_of_le hx (Nat.pow_le_pow_right (by omega) (by omega)))
        have hik : ¬(i - k < 64 - k) := by omega
        simp [hxb, hik]
    · simp [hki]
  · have h1 : szMod - 2 ^ k = 0 := by
      have : szMod ≤ 2 ^ k := by
        rw [hsz]
        exact Nat.pow_le_pow_right (by omega) (by omega)
      omega
    have h2 : x / 2 ^ k = 0 :=
      Nat.div_eq_of_lt (lt_of_lt_of_le hx (Nat.pow_le_pow_right (by omega) (by omega)))
    rw [h1, h2]
    show x &&& 0 = 0
    simp

theorem CalculatAllocationOffset_eq_alignUp (offset k : Nat)
    (hoff : offset + 2 ^ k - 1 < szMod) :
    CalculatAllocationOffset offset (2 ^ k) = alignUp offset (2 ^ k) :=
  land_high_mask (offset + 2 ^ k - 1) k hoff

theorem alignUp_ge (offset al : Nat) (hal : 0 < al) : offset ≤ alignUp offset al := by
  have h := Nat.div_add_mod (offset + al - 1) al
  have hm : (offset + al - 1) % al < al := Nat.mod_lt _ hal
  unfold alignUp
  generalize hq : al * ((offset + al - 1) / al) = y at h ⊢
  generalize hr : (offset + al - 1) % al = r at h hm
  omega

theorem alignUp_dvd (offset al : Nat) : al ∣ alignUp offset al :=
  ⟨(offset + al - 1) / al, rfl⟩

theorem alignUp_zero (al : Nat) (hal : 0 < al) : alignUp 0 al = 0 := by
  unfold alignUp
  have : al - 1 < al := by omega
  rw [Nat.zero_add, Nat.div_eq_of_lt this, Nat.mul_zero]

theorem layoutOffsets_ok (capacity : Nat) (cols : List ColTy) :
    ∀ offset, layoutOk capacity cols offset →
      layoutOffsets capacity cols offset = specOffsets capacity cols offset ∧
      offsetsAligned cols (layoutOffsets capacity cols offset) ∧
      noOverlap capacity cols (layoutOffsets capacity cols offset) ∧
      (∀ x, (layoutOffsets capacity cols offset).head? = some x → offset ≤ x) := by
  induction cols with
  | nil =>
    intro offset _
    refine ⟨rfl, trivial, trivial, ?_⟩
    intro x hx
    simp [layoutOffsets] at hx
  | cons c cs ih =>
    intro offset h
    obtain ⟨⟨k, hal⟩, hbound, hrest⟩ := h
    have hEq : CalculatAllocationOffset offset c.al = alignUp offset c.al := by
      rw [hal]
      exact CalculatAllocationOffset_eq_alignUp offset k (by rw [hal] at hbound; exact hbound)
    have halpos : 0 < c.al := by
      rw [hal]; exact Nat.pow_pos (by omega)
    have hge : offset ≤ CalculatAllocationOffset offset c.al := by
      rw [hEq]; exact alignUp_ge offset c.al halpos
    have hsz2 : CalculateAllocationSize offset c capacity =
        CalculatAllocationOffset offset c.al + c.sz * capacity := rfl
    obtain ⟨ihEq, ihAl, ihNo, ihGe⟩ := ih (CalculateAllocationSize offset c capacity) hrest
    refine ⟨?_, ?_, ?_, ?_⟩
    · rw [layoutOffsets, specOffsets, hEq, ihEq]
      congr 1
      congr 1
      rw [hsz2, hEq]
    · refine ⟨?_, ihAl⟩
      rw [hEq]
      exact alignUp_dvd offset c.al
    · rw [layoutOffsets]
      cases hcs : cs with
      | nil =>
        subst hcs
        simp [layoutOffsets, noOverlap]
      | cons c2 cs2 =>
        subst hcs
        rw [layoutOffsets]
        refine ⟨?_, ?_⟩
        · have := ihGe (CalculatAllocationOffset (CalculateAllocationSize offset c capacity) c2.al)
            (by rw [layoutOffsets]; rfl)
          rw [hsz2] at this
          have h2 : layoutOffsets capacity (c2 :: cs2) (CalculateAllocationSize offset c capacity) =
              CalculatAllocationOffset (CalculateAllocationSize offset c capacity) c2.al ::
                layoutOffsets capacity cs2
                  (CalculateAllocationSize (CalculateAllocationSize offset c capacity) c2 capacity) := rfl
          exact this
        · have h2 : layoutOffsets capacity (c2 :: cs2) (CalculateAllocationSize offset c capacity) =
              CalculatAllocationOffset (CalculateAllocationSize offset c capacity) c2.al ::
                layoutOffsets capacity cs2
                  (CalculateAllocationSize (CalculateAllocationSize offset c capacity) c2 capacity) := rfl
          rw [← h2]
          exact ihNo
    · intro x hx
      rw [layoutOffsets] at hx
      simp only [List.head?] at hx
      injection hx with hx
      omega

/-!  Basic properties of column segments. -/

theorem segMap_length {α : Type} (d : Nat → α) (a n : Nat) :
    (segMap d a n).length = n := by
  induction n generalizing a with
  | zero => rfl
  | succ n ih => simp [segMap, ih]

theorem segMap_append {α : Type} (d : Nat → α) (a m k : Nat) :
    segMap d a (m + k) = segMap d a m ++ segMap d (a + m) k := by
  induction m generalizing a with
  | zero => simp [segMap]
  | succ m ih =>
    have h1 : m + 1 + k = (m + k) + 1 := by omega
    rw [h1, segMap, segMap, ih (a + 1)]
    have h2 : a + 1 + m = a + (m + 1) := by omega
    rw [h2, List.cons_append]

theorem segMap_congr {α : Type} (d e : Nat → α) (a b n : Nat)
    (h : ∀ i, i < n → d (a + i) = e (b + i)) :
    segMap d a n = segMap e b n := by
  induction n generalizing a b with
  | zero => rfl
  | succ n ih =>
    rw [segMap, segMap]
    have h0 : d a = e b := by
      have := h 0 (by omega)
      simpa using this
    rw [h0]
    congr 1
    apply ih
    intro i hi
    have := h (i + 1) (by omega)
    have ha : a + (i + 1) = a + 1 + i := by omega
    have hb : b + (i + 1) = b + 1 + i := by omega
    rw [ha, hb] at this
    exact this

theorem segMap_const {α : Type} (d : Nat → α) (a n : Nat) (v : α)
    (h : ∀ i, i < n → d (a + i) = v) :
    segMap d a n = List.replicate n v := by
  induction n generalizing a with
  | zero => rfl
  | succ n ih =>
    rw [segMap, List.replicate]
    have h0 : d a = v := by
      have := h 0 (by omega)
      simpa using this
    rw [h0]
    congr 1
    apply ih
    intro i hi
    have := h (i + 1) (by omega)
    have ha : a + (i + 1) = a + 1 + i := by omega
    rw [ha] at this
    exact this

theorem segMap_take {α : Type} (d : Nat → α) (a n m : Nat) :
    (segMap d a n).take m = segMap d a (min m n) := by
  induction n generalizing a m with
  | zero => simp [segMap]
  | succ n ih =>
    cases m with
    | zero => simp [segMap]
    | succ m =>
      rw [segMap, List.take_succ_cons, ih]
      have : min (m + 1) (n + 1) = min m n + 1 := by omega
      rw [this, segMap]

theorem segMap_drop {α : Type} (d : Nat → α) (a n m : Nat) :
    (segMap d a n).drop m = segMap d (a + m) (n - m) := by
  induction n generalizing a m with
  | zero => simp [segMap]
  | succ n ih =>
    cases m with
    | zero => simp [segMap]
    | succ m =>
      rw [segMap, List.drop_succ_cons, ih]
      congr 1 <;> omega

theorem segMap_eraseIdx {α : Type} (d : Nat → α) (a n i : Nat) (h : i < n) :
    (segMap d a n).eraseIdx i = segMap d a i ++ segMap d (a + i + 1) (n - i - 1) := by
  induction i generalizing a n with
  | zero =>
    cases n with
    | zero => omega
    | succ n =>
      rw [segMap]
      show segMap d (a + 1) n = segMap d a 0 ++ segMap d (a + 0 + 1) (n + 1 - 0 - 1)
      simp [segMap]
  | succ i ih =>
    cases n with
    | zero => omega
    | succ n =>
      rw [segMap]
      show d a :: (segMap d (a + 1) n).eraseIdx i =
        segMap d a (i + 1) ++ segMap d (a + (i + 1) + 1) (n + 1 - (i + 1) - 1)
      rw [ih (a + 1) n (by omega), segMap]
      have h1 : a + 1 + i + 1 = a + (i + 1) + 1 := by omega
      have h2 : n - i - 1 = n + 1 - (i + 1) - 1 := by omega
      rw [h1, h2, List.cons_append]

/-!  `size_t` arithmetic facts. -/

theorem uadd_small (x y : Nat) (h : x + y < szMod) : uadd x y = x + y :=
  Nat.mod_eq_of_lt h

theorem usub_zero (x : Nat) : usub x 0 = x % szMod := by
  unfold usub
  rw [Nat.zero_mod, Nat.sub_zero, Nat.add_mod_right]

theorem usub_of_le (x y : Nat) (hyx : y ≤ x) (hx : x < szMod) : usub x y = x - y := by
  unfold usub
  rw [Nat.mod_eq_of_lt (show y < szMod by omega)]
  have h1 : x + (szMod - y) = (x - y) + szMod := by omega
  rw [h1, Nat.add_mod_right]
  exact Nat.mod_eq_of_lt (by omega)

theorem usub_of_lt (x y : Nat) (hxy : x < y) (hy : y < szMod) : usub x y = szMod - (y - x) := by
  unfold usub
  rw [Nat.mod_eq_of_lt hy]
  have h1 : x + (szMod - y) = szMod - (y - x) := by omega
  rw [h1]
  exact Nat.mod_eq_of_lt (by omega)

/-!  Claim theorems. -/

/-- C1 is false as stated: the very first `push_back` on an empty container
grows the capacity to 2 — `DoGrow` applies `GetNewCapacity` to the
*required* capacity, yielding `2 × requiredCapacity` — while the claimed
formula `max(2 × oldCapacity, requiredCapacity)` (with `oldCapacity = 0`
growing to 1) gives 1; so after 1 `push_back` from empty the capacity is
not the smallest doubling-chain-from-1 value ≥ 1. -/

theorem c1_counterexample :
    DoGrowCap 0 1 = 2 ∧ specGrowCap 0 1 = 1 ∧ DoGrowCap 0 1 ≠ specGrowCap 0 1 ∧
    (pushBackN 1).2 = 2 ∧ (pushBackN 1).2 ≠ 1 := by decide

/-- C1 (amended): the code has two distinct growth formulas.  The
`push_back` / `push_back()` / `push_back_uninitialized` / `emplace_back`
family grows through `DoGrow`, whose new capacity is `2 × requiredCapacity`
(it passes the required capacity to `GetNewCapacity`); the `resize` /
`insert` / `emplace` growth paths use
`max(GetNewCapacity(oldCapacity), requiredCapacity)`, which is exactly the
spec's `max(2 × oldCapacity, requiredCapacity)` with `oldCapacity = 0`
growing to 1.  Consequently, after `n ≥ 1` sequential `push_back`s from
empty, `capacity()` is the smallest value ≥ n in the chain
`2, 6, 14, …, 2^(k+1) - 2, …` (each step doubles `capacity + 1`), not the
doubling chain from 1. -/

theorem c1_growth_amended :
    (∀ oldCap required, oldCap < required → 1 ≤ required →
        DoGrowCap oldCap required = 2 * required)
  ∧ (∀ oldCap required, oldCap < required →
        resizeGrowCap oldCap required = specGrowCap oldCap required)
  ∧ (∀ n, 1 ≤ n →
        (pushBackN n).1 = n ∧
        ∃ k, 1 ≤ k ∧ (pushBackN n).2 = 2 ^ (k + 1) - 2 ∧
          n ≤ 2 ^ (k + 1) - 2 ∧ 2 ^ k - 2 < n) := by
  refine ⟨?_, ?_, ?_⟩
  · intro oldCap required h h1
    unfold DoGrowCap GetNewCapacity
    rw [if_pos h, if_pos (by omega)]
  · intro oldCap required h
    unfold resizeGrowCap specGrowCap GetNewCapacity
    rw [if_pos h]
    by_cases h0 : oldCap = 0
    · subst h0
      norm_num
    · rw [if_pos (by omega), if_neg h0]
  · intro n
    induction n with
    | zero => intro h; omega
    | succ n ih =>
      intro _
      by_cases hn : 1 ≤ n
      · obtain ⟨hsz, k, hk, hcap, hle, hlt⟩ := ih hn
        have hstep1 : (pushBackN (n + 1)).1 = (pushBackN n).1 + 1 := rfl
        have hstep2 : (pushBackN (n + 1)).2 =
            DoGrowCap (pushBackN n).2 ((pushBackN n).1 + 1) := rfl
        have hp1 : 0 < 2 ^ k := Nat.pow_pos (by omega)
        have hp2 : (2 : Nat) ^ (k + 1) = 2 * 2 ^ k := by rw [pow_succ]; ring
        have hp3 : (2 : Nat) ^ (k + 1 + 1) = 2 * 2 ^ (k + 1) := by rw [pow_succ]; ring
        refine ⟨by rw [hstep1, hsz], ?_⟩
        rw [hstep2, hsz, hcap]
        by_cases hg : n + 1 > 2 ^ (k + 1) - 2
        · unfold DoGrowCap GetNewCapacity
          rw [if_pos (by omega), if_pos (by omega)]
          exact ⟨k + 1, by omega, by omega, by omega, by omega⟩
        · unfold DoGrowCap
          rw [if_neg (by omega)]
          exact ⟨k, hk, rfl, by omega, by omega⟩
      · have hn0 : n = 0 := by omega
        subst hn0
        exact ⟨rfl, 1, by decide, by decide, by decide, by decide⟩

theorem c1_growth_amended_witness :
    DoGrowCap 0 1 = 2 * 1 ∧ resizeGrowCap 2 5 = specGrowCap 2 5 ∧
    ((pushBackN 3).1 = 3 ∧ ∃ k, 1 ≤ k ∧ (pushBackN 3).2 = 2 ^ (k + 1) - 2 ∧
      3 ≤ 2 ^ (k + 1) - 2 ∧ 2 ^ k - 2 < 3) :=
  ⟨c1_growth_amended.1 0 1 (by decide) (by decide),
   c1_growth_amended.2.1 2 5 (by decide),
   c1_growth_amended.2.2 3 (by decide)⟩

/-- C9: the layout is a pure function of the declared column types and the
requested capacity.  Under the always-true side conditions (`alignof` is a
power of two, offsets fit in `size_t`): the offsets computed by
`DoAllocate`'s recursion equal the spec's `align_up` recursion (so column
0's offset is 0 — see the fourth conjunct — and column `i`'s offset is
`align_up(offsetᵢ₋₁ + sizeofᵢ₋₁ × capacity, alignofᵢ)`); every column's
offset is aligned to its own alignment; consecutive sub-regions never
overlap; and a requested capacity of 0 performs no allocation, yielding the
null pointer. -/

theorem c9_layout (capacity : Nat) (cols : List ColTy) (h : layoutOk capacity cols 0)
    (allocId : Nat) :
    layoutOffsets capacity cols 0 = specOffsets capacity cols 0 ∧
    offsetsAligned cols (layoutOffsets capacity cols 0) ∧
    noOverlap capacity cols (layoutOffsets capacity cols 0) ∧
    (∀ c rest, cols = c :: rest → (layoutOffsets capacity cols 0).headD 1 = 0) ∧
    doAllocatePtr 0 allocId = none := by
  obtain ⟨hEq, hAl, hNo, hGe⟩ := layoutOffsets_ok capacity cols 0 h
  refine ⟨hEq, hAl, hNo, ?_, rfl⟩
  intro c rest hcols
  subst hcols
  obtain ⟨⟨k, hal⟩, hbound, -⟩ := h
  show (CalculatAllocationOffset 0 c.al ::
    layoutOffsets capacity rest (CalculateAllocationSize 0 c capacity)).headD 1 = 0
  rw [List.headD_cons, hal]
  rw [CalculatAllocationOffset_eq_alignUp 0 k (by rw [hal] at hbound; exact hbound)]
  exact alignUp_zero _ (Nat.pow_pos (by omega))

theorem c9_layout_witness :
    layoutOk 5 [ColTy.mk 4 4, ColTy.mk 1 1, ColTy.mk 8 8] 0 ∧
    (layoutOffsets 5 [ColTy.mk 4 4, ColTy.mk 1 1, ColTy.mk 8 8] 0 =
        specOffsets 5 [ColTy.mk 4 4, ColTy.mk 1 1, ColTy.mk 8 8] 0 ∧
      offsetsAligned [ColTy.mk 4 4, ColTy.mk 1 1, ColTy.mk 8 8]
        (layoutOffsets 5 [ColTy.mk 4 4, ColTy.mk 1 1, ColTy.mk 8 8] 0) ∧
      noOverlap 5 [ColTy.mk 4 4, ColTy.mk 1 1, ColTy.mk 8 8]
        (layoutOffsets 5 [ColTy.mk 4 4, ColTy.mk 1 1, ColTy.mk 8 8] 0) ∧
      (∀ c rest, [ColTy.mk 4 4, ColTy.mk 1 1, ColTy.mk 8 8] = c :: rest →
        (layoutOffsets 5 [ColTy.mk 4 4, ColTy.mk 1 1, ColTy.mk 8 8] 0).headD 1 = 0) ∧
      doAllocatePtr 0 7 = none) := by
  have hOk : layoutOk 5 [ColTy.mk 4 4, ColTy.mk 1 1, ColTy.mk 8 8] 0 :=
    ⟨⟨2, rfl⟩, by decide, ⟨0, rfl⟩, by decide, ⟨3, rfl⟩, by decide, trivial⟩
  exact ⟨hOk, c9_layout 5 [ColTy.mk 4 4, ColTy.mk 1 1, ColTy.mk 8 8] hOk 7⟩

/-- C6: iterator arithmetic operates purely on the index, carrying the
pointer snapshot along; with all results in range, `(it + a) + b = it +
(a + b)`; for two iterators over the same container `it2 - it1 = n` iff
`it1 + n == it2`; `(it + k) - it = k`; and `it + k` equals `k + it`. -/

theorem c6_iter_algebra (it it1 it2 : TupleVecIter) (a b n k : Nat)
    (h1 : it1.mIndex < szMod) (h2 : it2.mIndex < szMod)
    (h1n : it1.mIndex + n < szMod)
    (hsame : it1.mpData.getD 0 0 = it2.mpData.getD 0 0)
    (hk : it.mIndex + k < szMod) :
    iterAdd (iterAdd it a) b = iterAdd it (a + b)
  ∧ (iterDiff it2 it1 = n ↔ iterEq (iterAdd it1 n) it2 = true)
  ∧ iterDiff (iterAdd it k) it = k
  ∧ iterAdd it k = iterAddLeft k it := by
  refine ⟨?_, ?_, ?_, rfl⟩
  · simp only [iterAdd, iterAddAssign]
    congr 1
    unfold uadd
    rw [Nat.mod_add_mod, Nat.add_assoc]
  · constructor
    · intro hd
      rcases le_or_lt it1.mIndex it2.mIndex with hle | hlt
      · unfold iterDiff at hd
        rw [usub_of_le _ _ hle h2] at hd
        have heq : it1.mIndex + n = it2.mIndex := by omega
        simp only [iterEq, iterAdd, iterAddAssign, Bool.and_eq_true, beq_iff_eq]
        rw [uadd_small _ _ h1n]
        exact ⟨heq, hsame⟩
      · unfold iterDiff at hd
        rw [usub_of_lt _ _ hlt h1] at hd
        omega
    · intro he
      simp only [iterEq, iterAdd, iterAddAssign, Bool.and_eq_true, beq_iff_eq] at he
      rw [uadd_small _ _ h1n] at he
      unfold iterDiff
      rw [usub_of_le _ _ (by omega) h2]
      omega
  · unfold iterDiff iterAdd iterAddAssign
    rw [uadd_small _ _ hk]
    show usub (it.mIndex + k) it.mIndex = k
    rw [usub_of_le _ _ (by omega) hk]
    omega

theorem c6_iter_algebra_witness :
    (iterAdd (iterAdd ⟨5, [3]⟩ 2) 4 = iterAdd ⟨5, [3]⟩ (2 + 4)
  ∧ (iterDiff ⟨9, [3]⟩ ⟨5, [3]⟩ = 4 ↔ iterEq (iterAdd ⟨5, [3]⟩ 4) ⟨9, [3]⟩ = true)
  ∧ iterDiff (iterAdd ⟨5, [3]⟩ 7) ⟨5, [3]⟩ = 7
  ∧ iterAdd ⟨5, [3]⟩ 7 = iterAddLeft 7 ⟨5, [3]⟩) :=
  c6_iter_algebra ⟨5, [3]⟩ ⟨5, [3]⟩ ⟨9, [3]⟩ 2 4 4 7
    (by decide) (by decide) (by decide) rfl (by decide)

/-- C7: two iterators compare equal exactly when their indices agree and
their column-0 pointers agree — no other column pointer participates (the
third conjunct equates two iterators whose column-1 pointers differ) — and
`operator!=` is the exact boolean negation of `operator==`. -/

theorem c7_iter_equality :
    (∀ a b : TupleVecIter,
        iterEq a b = true ↔ a.mIndex = b.mIndex ∧ a.mpData.getD 0 0 = b.mpData.getD 0 0)
  ∧ (∀ a b : TupleVecIter, iterNe a b = !iterEq a b)
  ∧ iterEq ⟨3, [10, 77]⟩ ⟨3, [10, 99]⟩ = true := by
  refine ⟨?_, ?_, by decide⟩
  · intro a b
    simp [iterEq]
  · intro a b
    simp only [iterEq, iterNe, bne, Bool.not_and]

theorem c7_iter_equality_witness :
    iterNe ⟨0, [5]⟩ ⟨1, [5]⟩ = !iterEq ⟨0, [5]⟩ ⟨1, [5]⟩ :=
  c7_iter_equality.2.1 ⟨0, [5]⟩ ⟨1, [5]⟩

/-- C2 is false as stated: a growth-triggering `push_back` whose allocation
fails does not leave the container unchanged — `mNumElements` was already
set to `oldNumElements + 1` before `DoGrow` attempted the allocation, so the
caught state's size differs from the pre-call size. -/

theorem c2_counterexample :
    ∃ err : Engine Nat,
      push_back engC2 [7] none = Except.error err ∧
      err.mNumElements ≠ engC2.mNumElements := by
  refine ⟨_, rfl, ?_⟩
  decide

/-- C2 (amended): on an allocation failure that is caught during a
growth-triggering `push_back`, the old allocation has not been freed and
the capacity, the allocation pointer and every column leaf (pointer and
contents) hold their pre-call values — but `size` does not: it already
holds `oldNumElements + 1`, because `push_back` sets `mNumElements` before
calling `DoGrow`. -/

theorem c2_pushback_alloc_failure {α : Type} (e : Engine α) (vals : List α)
    (h : e.mNumCapacity < e.mNumElements + 1) :
    push_back e vals none = Except.error { e with mNumElements := e.mNumElements + 1 } ∧
    ∀ err : Engine α, push_back e vals none = Except.error err →
      err.mpData = e.mpData ∧ err.freed = e.freed ∧
      err.mNumCapacity = e.mNumCapacity ∧ err.cols = e.cols ∧
      err.mNumElements = e.mNumElements + 1 := by
  have h1 : push_back e vals none =
      Except.error { e with mNumElements := e.mNumElements + 1 } := by
    unfold push_back
    rw [if_pos (by omega)]
  refine ⟨h1, ?_⟩
  intro err herr
  rw [h1] at herr
  injection herr with herr
  rw [← herr]
  exact ⟨rfl, rfl, rfl, rfl, rfl⟩

theorem c2_pushback_alloc_failure_witness :
    engC2.mNumCapacity < engC2.mNumElements + 1 ∧
    (push_back engC2 [7] none =
        Except.error { engC2 with mNumElements := engC2.mNumElements + 1 } ∧
      ∀ err : Engine Nat, push_back engC2 [7] none = Except.error err →
        err.mpData = engC2.mpData ∧ err.freed = engC2.freed ∧
        err.mNumCapacity = engC2.mNumCapacity ∧ err.cols = engC2.cols ∧
        err.mNumElements = engC2.mNumElements + 1) :=
  ⟨by decide, c2_pushback_alloc_failure engC2 [7] (by decide)⟩

/-- C8 is false as stated: on a container with `capacity == size == 1`,
`shrink_to_fit` still builds a moved-to temporary — it performs one
allocation, installs the new allocation and leaf pointers and frees the old
allocation — so the allocation pointer and leaf pointer do change and an
allocation does occur. -/

theorem c8_counterexample :
    engC8.mNumCapacity = engC8.mNumElements ∧
    (shrink_to_fit engC8 1 [200] [fun _ => 0] (fun _ => 0)).2 = 1 ∧
    (shrink_to_fit engC8 1 [200] [fun _ => 0] (fun _ => 0)).1.mpData ≠ engC8.mpData ∧
    (shrink_to_fit engC8 1 [200] [fun _ => 0] (fun _ => 0)).1.freed ≠ engC8.freed ∧
    (shrink_to_fit engC8 1 [200] [fun _ => 0] (fun _ => 0)).1.cols.map Leaf.ptr ≠
      engC8.cols.map Leaf.ptr := by
  refine ⟨rfl, rfl, by decide, by decide, by decide⟩

/-- C8 (amended): when `capacity == size`, `shrink_to_fit` preserves the
size, the capacity and every live element value of every column, but it is
not allocation-free: whenever `size > 0` it performs exactly one
allocation, installs the fresh allocation and leaf pointers and frees the
previous allocation; only for `size = 0` does it allocate nothing (then it
holds the null pointer). -/

theorem c8_shrink_to_fit {α : Type} (e : Engine α) (aid : Nat)
    (fp : List Nat) (fb : List (Nat → α)) (junk : Nat → α)
    (hcs : e.mNumCapacity = e.mNumElements) :
    (shrink_to_fit e aid fp fb junk).1.mNumElements = e.mNumElements ∧
    (shrink_to_fit e aid fp fb junk).1.mNumCapacity = e.mNumCapacity ∧
    (∀ i lf lf0,
        (shrink_to_fit e aid fp fb junk).1.cols.get? i = some lf →
        e.cols.get? i = some lf0 →
        ∀ j, j < e.mNumElements → lf.d j = lf0.d j) ∧
    (0 < e.mNumElements →
      (shrink_to_fit e aid fp fb junk).2 = 1 ∧
      (shrink_to_fit e aid fp fb junk).1.mpData = some aid ∧
      (shrink_to_fit e aid fp fb junk).1.freed = e.freed ++ freedOf e.mpData) ∧
    (e.mNumElements = 0 →
      (shrink_to_fit e aid fp fb junk).2 = 0 ∧
      (shrink_to_fit e aid fp fb junk).1.mpData = none) := by
  by_cases hn : 0 < e.mNumElements
  · have hred : shrink_to_fit e aid fp fb junk =
        ({ mpData := some aid,
           mNumElements := e.mNumElements,
           mNumCapacity := e.mNumElements,
           cols := (e.cols.zip (fp.zip fb)).map fun pq =>
             { ptr := pq.2.1, d := copyAcross pq.1.d pq.2.2 0 0 e.mNumElements },
           freed := e.freed ++ freedOf e.mpData }, 1) := by
      unfold shrink_to_fit
      rw [if_pos hn]
    rw [hred]
    refine ⟨rfl, hcs.symm, ?_, fun _ => ⟨rfl, rfl, rfl⟩, fun h0 => absurd h0 (by omega)⟩
    intro i lf lf0 hlf hlf0 j hj
    rw [List.get?_map] at hlf
    rcases Option.map_eq_some'.mp hlf with ⟨pq, hpq, hflf⟩
    rcases (List.get?_zip_eq_some _ _ _ _).mp hpq with ⟨h1, -⟩
    rw [hlf0] at h1
    injection h1 with h1
    rw [← hflf]
    show copyAcross pq.1.d pq.2.2 0 0 e.mNumElements j = lf0.d j
    unfold copyAcross
    rw [if_pos (by omega), h1]
    simp
  · have h0 : e.mNumElements = 0 := by omega
    have hred : shrink_to_fit e aid fp fb junk =
        ({ mpData := none,
           mNumElements := 0,
           mNumCapacity := 0,
           cols := e.cols.map fun _ => { ptr := 0, d := junk },
           freed := e.freed ++ freedOf e.mpData }, 0) := by
      unfold shrink_to_fit
      rw [if_neg hn]
    rw [hred]
    refine ⟨h0.symm, ?_, fun i lf lf0 _ _ j hj => absurd hj (by omega),
      fun hc => absurd hc (by omega), fun _ => ⟨rfl, rfl⟩⟩
    show (0 : Nat) = e.mNumCapacity
    omega

theorem c8_shrink_to_fit_witness :
    engC8.mNumCapacity = engC8.mNumElements ∧
    ((shrink_to_fit engC8 1 [200] [fun _ => 0] (fun _ => 0)).1.mNumElements =
        engC8.mNumElements ∧
      (shrink_to_fit engC8 1 [200] [fun _ => 0] (fun _ => 0)).1.mNumCapacity =
        engC8.mNumCapacity ∧
      (∀ i lf lf0,
          (shrink_to_fit engC8 1 [200] [fun _ => 0] (fun _ => 0)).1.cols.get? i = some lf →
          engC8.cols.get? i = some lf0 →
          ∀ j, j < engC8.mNumElements → lf.d j = lf0.d j) ∧
      (0 < engC8.mNumElements →
        (shrink_to_fit engC8 1 [200] [fun _ => 0] (fun _ => 0)).2 = 1 ∧
        (shrink_to_fit engC8 1 [200] [fun _ => 0] (fun _ => 0)).1.mpData = some 1 ∧
        (shrink_to_fit engC8 1 [200] [fun _ => 0] (fun _ => 0)).1.freed =
          engC8.freed ++ freedOf engC8.mpData) ∧
      (engC8.mNumElements = 0 →
        (shrink_to_fit engC8 1 [200] [fun _ => 0] (fun _ => 0)).2 = 0 ∧
        (shrink_to_fit engC8 1 [200] [fun _ => 0] (fun _ => 0)).1.mpData = none)) :=
  ⟨rfl, c8_shrink_to_fit engC8 1 [200] [fun _ => 0] (fun _ => 0) rfl⟩

/-- C10: `clear` destroys all live elements and zeroes the size while
leaving capacity, the shared allocation pointer, the deallocation log and
every column leaf (pointer and contents) unchanged; and `erase(first,
last)` with `first == last` is a no-op that changes no state and returns an
iterator at `first`'s index. -/

theorem c10_clear_erase_frame {α : Type} (e : Engine α) (it : TupleVecIter)
    (hlt : it.mIndex < szMod) :
    (clear e).mNumElements = 0 ∧ (clear e).mNumCapacity = e.mNumCapacity ∧
    (clear e).mpData = e.mpData ∧ (clear e).cols = e.cols ∧
    (clear e).freed = e.freed ∧
    (erase e it it).1 = e ∧ ((erase e it it).2).mIndex = it.mIndex := by
  have hne : iterNe it it = false := by
    simp [iterNe]
  refine ⟨rfl, rfl, rfl, rfl, rfl, ?_, ?_⟩
  · unfold erase
    rw [hne]
    simp
  · unfold erase
    rw [hne]
    show (iterAdd (beginIter e) it.mIndex).mIndex = it.mIndex
    show uadd 0 it.mIndex = it.mIndex
    unfold uadd
    rw [Nat.zero_add]
    exact Nat.mod_eq_of_lt hlt

theorem c10_clear_erase_frame_witness :
    (2 : Nat) < szMod ∧
    ((clear engC10).mNumElements = 0 ∧
      (clear engC10).mNumCapacity = engC10.mNumCapacity ∧
      (clear engC10).mpData = engC10.mpData ∧
      (clear engC10).cols = engC10.cols ∧
      (clear engC10).freed = engC10.freed ∧
      (erase engC10 ⟨2, [50]⟩ ⟨2, [50]⟩).1 = engC10 ∧
      ((erase engC10 ⟨2, [50]⟩ ⟨2, [50]⟩).2).mIndex = 2) :=
  ⟨by decide, c10_clear_erase_frame engC10 ⟨2, [50]⟩ (by decide)⟩

/-!  Leaf-level consequences of the shift primitives. -/

/-- The live contents after `erase`'s per-column shift: the first `f` slots
are unchanged and the old slots `[l, s)` have moved down to `f`. -/

theorem erase_segMap {α : Type} (d : Nat → α) (s f l : Nat)
    (hfl : f ≤ l) (hls : l ≤ s) :
    liveList (s - (l - f)) (stdMove d l f (s - l)) =
      (liveList s d).take f ++ (liveList s d).drop l := by
  unfold liveList
  rw [segMap_take, segMap_drop]
  have h1 : min f s = f := by omega
  rw [h1]
  have h2 : s - (l - f) = f + (s - l) := by omega
  rw [h2, segMap_append]
  congr 1
  · apply segMap_congr
    intro i hi
    rw [stdMove_spec _ _ _ _ (Or.inl hfl)]
    rw [if_neg (by omega)]
  · apply segMap_congr
    intro i hi
    rw [stdMove_spec _ _ _ _ (Or.inl hfl)]
    rw [if_pos (by omega)]
    congr 1
    omega

/-- The live contents after `erase_unsorted`'s per-column move are a
permutation of the old live contents with the erased slot removed. -/

theorem erase_unsorted_perm {α : Type} (d : Nat → α) (s p : Nat) (hps : p < s) :
    List.Perm (liveList (s - 1) (stdMove d (s - 1) p 1))
      ((liveList s d).eraseIdx p) := by
  unfold liveList
  rw [segMap_eraseIdx d 0 s p hps]
  by_cases hp : p = s - 1
  · subst hp
    have h1 : segMap (stdMove d (s - 1) (s - 1) 1) 0 (s - 1) = segMap d 0 (s - 1) := by
      apply segMap_congr
      intro i hi
      rw [stdMove_spec _ _ _ _ (Or.inl (by omega))]
      rw [if_neg (by omega)]
    have h2 : s - (s - 1) - 1 = 0 := by omega
    rw [h1, h2]
    show List.Perm (segMap d 0 (s - 1)) (segMap d 0 (s - 1) ++ [])
    rw [List.append_nil]
  · have hplt : p < s - 1 := by omega
    have e1 : segMap (stdMove d (s - 1) p 1) 0 p = segMap d 0 p := by
      apply segMap_congr
      intro i hi
      rw [stdMove_spec _ _ _ _ (Or.inl (by omega))]
      rw [if_neg (by omega)]
    have e2 : segMap (stdMove d (s - 1) p 1) (0 + p) 1 = [d (s - 1)] := by
      show stdMove d (s - 1) p 1 (0 + p) :: segMap (stdMove d (s - 1) p 1) (0 + p + 1) 0 =
        [d (s - 1)]
      rw [stdMove_spec _ _ _ _ (Or.inl (by omega))]
      rw [if_pos (by omega)]
      have h4 : s - 1 + (0 + p - p) = s - 1 := by omega
      rw [h4]
      rfl
    have e3 : segMap (stdMove d (s - 1) p 1) (0 + p + 1) (s - 2 - p) =
        segMap d (p + 1) (s - 2 - p) := by
      apply segMap_congr
      intro i hi
      rw [stdMove_spec _ _ _ _ (Or.inl (by omega))]
      rw [if_neg (by omega)]
      congr 1
      omega
    have hLHS : segMap (stdMove d (s - 1) p 1) 0 (s - 1) =
        segMap d 0 p ++ ([d (s - 1)] ++ segMap d (p + 1) (s - 2 - p)) := by
      have hh : segMap (stdMove d (s - 1) p 1) 0 (s - 1) =
          segMap (stdMove d (s - 1) p 1) 0 (p + (1 + (s - 2 - p))) := by
        congr 1
        omega
      rw [hh, segMap_append, segMap_append, e1, e2, e3]
    have hRHS : segMap d 0 p ++ segMap d (0 + p + 1) (s - p - 1) =
        segMap d 0 p ++ (segMap d (p + 1) (s - 2 - p) ++ [d (s - 1)]) := by
      congr 1
      have hh : segMap d (0 + p + 1) (s - p - 1) = segMap d (p + 1) ((s - 2 - p) + 1) := by
        congr 1 <;> omega
      rw [hh, segMap_append]
      congr 1
      show segMap d (p + 1 + (s - 2 - p)) 1 = [d (s - 1)]
      show d (p + 1 + (s - 2 - p)) :: segMap d (p + 1 + (s - 2 - p) + 1) 0 = [d (s - 1)]
      have h5 : p + 1 + (s - 2 - p) = s - 1 := by omega
      rw [h5]
      rfl
    rw [hLHS, hRHS]
    exact List.Perm.append_left _ List.perm_append_comm

/-- The slot-level effect of `DoInsertAndFill` on the live range: slots
below `pos` are unchanged, `[pos, pos + n)` hold the fill value, and the
old slots `[pos, numElements)` have shifted up by `n` — identically in both
strategy branches. -/

theorem DoInsertAndFill_point {α : Type} (d : Nat → α) (s p n : Nat) (v : α)
    (hps : p ≤ s) (j : Nat) (hj : j < s + n) :
    DoInsertAndFill d p n s v j =
      if j < p then d j else if j < p + n then v else d (j - n) := by
  simp only [DoInsertAndFill]
  by_cases hb : n < s - p
  · rw [if_pos hb]
    rw [fillN_spec]
    rw [moveBackward_spec _ _ _ _ (Or.inl (by omega))]
    simp only [stdMove_spec d (s - n) s n (Or.inr (by omega))]
    split_ifs <;> first
      | rfl
      | (congr 1; omega)
      | omega
  · rw [if_neg hb]
    rw [fillN_spec]
    rw [stdMove_spec _ p (s + (n - (s - p))) (s - p) (Or.inr (by omega))]
    simp only [fillN_spec]
    split_ifs <;> first
      | rfl
      | (congr 1; omega)
      | omega

/-- `DoInsertAndFill` on the live list: the result is the prefix before
`pos`, then `n` copies of the value, then the old suffix from `pos`. -/

theorem DoInsertAndFill_segMap {α : Type} (d : Nat → α) (s p n : Nat) (v : α)
    (hps : p ≤ s) :
    liveList (s + n) (DoInsertAndFill d p n s v) =
      (liveList s d).take p ++ List.replicate n v ++ (liveList s d).drop p := by
  unfold liveList
  rw [segMap_take, segMap_drop]
  have h1 : min p s = p := by omega
  rw [h1]
  have h2 : s + n = p + (n + (s - p)) := by omega
  rw [h2, segMap_append, segMap_append]
  have e1 : segMap (DoInsertAndFill d p n s v) 0 p = segMap d 0 p := by
    apply segMap_congr
    intro i hi
    rw [DoInsertAndFill_point d s p n v hps _ (by omega)]
    rw [if_pos (by omega)]
  have e2 : segMap (DoInsertAndFill d p n s v) (0 + p) n = List.replicate n v := by
    apply segMap_const
    intro i hi
    rw [DoInsertAndFill_point d s p n v hps _ (by omega)]
    rw [if_neg (by omega), if_pos (by omega)]
  have e3 : segMap (DoInsertAndFill d p n s v) (0 + p + n) (s - p) =
      segMap d (0 + p) (s - p) := by
    apply segMap_congr
    intro i hi
    rw [DoInsertAndFill_point d s p n v hps _ (by omega)]
    rw [if_neg (by omega), if_neg (by omega)]
    congr 1
    omega
  rw [e1, e2, e3, List.append_assoc]

/-- Appending by `uninitialized_fill` at the end of the live range (the
`insert`-at-end fast path). -/

theorem fillN_liveList {α : Type} (d : Nat → α) (s n : Nat) (v : α) :
    liveList (s + n) (fillN d s v n) = liveList s d ++ List.replicate n v := by
  unfold liveList
  rw [segMap_append]
  congr 1
  · apply segMap_congr
    intro i hi
    rw [fillN_spec]
    rw [if_neg (by omega)]
  · apply segMap_const
    intro i hi
    rw [fillN_spec]
    rw [if_pos (by omega)]

theorem iterDiff_begin {α : Type} (e : Engine α) (it : TupleVecIter)
    (hM : it.mIndex < szMod) : iterDiff it (beginIter e) = it.mIndex := by
  unfold iterDiff beginIter
  show usub it.mIndex 0 = it.mIndex
  rw [usub_zero]
  exact Nat.mod_eq_of_lt hM

theorem liveList_take_all {α : Type} (d : Nat → α) (s : Nat) :
    (liveList s d).take s = liveList s d := by
  unfold liveList
  rw [segMap_take]
  congr 1
  omega

theorem liveList_drop_all {α : Type} (d : Nat → α) (s : Nat) :
    (liveList s d).drop s = [] := by
  unfold liveList
  rw [segMap_drop]
  have h : s - s = 0 := by omega
  rw [h]
  rfl

/-- C3: `erase(first, last)` on a valid non-empty range `[f, l)` shrinks the
size to `s - (l - f)`; in every column the slots below `f` are unchanged,
the old slot `l + k` has moved to `f + k`, and the live contents become
`take f ++ drop l` of the old live contents — the same order-preserving
shift in every column.  Capacity, allocation and leaf pointers are
untouched. -/

theorem c3_erase {α : Type} (e : Engine α) (first last : TupleVecIter) (s f l : Nat)
    (hs : e.mNumElements = s) (hf : first.mIndex = f) (hl : last.mIndex = l)
    (hfl : f < l) (hls : l ≤ s) (hlM : l < szMod) :
    (erase e first last).1.mNumElements = s - (l - f) ∧
    (erase e first last).1.mNumCapacity = e.mNumCapacity ∧
    (erase e first last).1.mpData = e.mpData ∧
    (erase e first last).1.freed = e.freed ∧
    (∀ i lf lf0,
        (erase e first last).1.cols.get? i = some lf →
        e.cols.get? i = some lf0 →
        lf.ptr = lf0.ptr ∧
        liveList (s - (l - f)) lf.d =
          (liveList s lf0.d).take f ++ (liveList s lf0.d).drop l ∧
        (∀ j, j < f → lf.d j = lf0.d j) ∧
        (∀ k, k < s - l → lf.d (f + k) = lf0.d (l + k))) := by
  have hne : iterNe first last = true := by
    unfold iterNe
    rw [hf, hl]
    have hb : (f != l) = true := by
      simp [bne]
      omega
    rw [hb, Bool.true_or]
  have hfi : iterDiff first (beginIter e) = f := by
    rw [iterDiff_begin e first (by omega), hf]
  have hli : iterDiff last (beginIter e) = l := by
    rw [iterDiff_begin e last (by omega), hl]
  have hred0 : (erase e first last).1 = { e with
      mNumElements := e.mNumElements -
        (iterDiff last (beginIter e) - iterDiff first (beginIter e)),
      cols := e.cols.map fun lf => { lf with d := stdMove lf.d (iterDiff last (beginIter e)) (iterDiff first (beginIter e)) (e.mNumElements - iterDiff last (beginIter e)) } } := by
    unfold erase
    rw [if_pos hne]
  have hred : (erase e first last).1 = { e with
      mNumElements := s - (l - f),
      cols := e.cols.map fun lf => { lf with d := stdMove lf.d l f (s - l) } } := by
    rw [hred0, hfi, hli, hs]
  rw [hred]
  refine ⟨rfl, rfl, rfl, rfl, ?_⟩
  intro i lf lf0 hlf hlf0
  rw [List.get?_map, hlf0, Option.map_some'] at hlf
  injection hlf with hlf
  rw [← hlf]
  refine ⟨rfl, erase_segMap lf0.d s f l (by omega) hls, ?_, ?_⟩
  · intro j hj
    show stdMove lf0.d l f (s - l) j = lf0.d j
    rw [stdMove_spec _ _ _ _ (Or.inl (by omega)), if_neg (by omega)]
  · intro k hk
    show stdMove lf0.d l f (s - l) (f + k) = lf0.d (l + k)
    rw [stdMove_spec _ _ _ _ (Or.inl (by omega)), if_pos (by omega)]
    have harg : l + (f + k - f) = l + k := by omega
    rw [harg]

theorem c3_erase_witness :
    (engC3.mNumElements = 4 ∧ (⟨1, [10]⟩ : TupleVecIter).mIndex = 1 ∧
      (⟨3, [10]⟩ : TupleVecIter).mIndex = 3 ∧ 1 < 3 ∧ 3 ≤ 4 ∧ 3 < szMod) ∧
    ((erase engC3 ⟨1, [10]⟩ ⟨3, [10]⟩).1.mNumElements = 4 - (3 - 1) ∧
      (erase engC3 ⟨1, [10]⟩ ⟨3, [10]⟩).1.mNumCapacity = engC3.mNumCapacity ∧
      (erase engC3 ⟨1, [10]⟩ ⟨3, [10]⟩).1.mpData = engC3.mpData ∧
      (erase engC3 ⟨1, [10]⟩ ⟨3, [10]⟩).1.freed = engC3.freed ∧
      (∀ i lf lf0,
          (erase engC3 ⟨1, [10]⟩ ⟨3, [10]⟩).1.cols.get? i = some lf →
          engC3.cols.get? i = some lf0 →
          lf.ptr = lf0.ptr ∧
          liveList (4 - (3 - 1)) lf.d =
            (liveList 4 lf0.d).take 1 ++ (liveList 4 lf0.d).drop 3 ∧
          (∀ j, j < 1 → lf.d j = lf0.d j) ∧
          (∀ k, k < 4 - 3 → lf.d (1 + k) = lf0.d (3 + k)))) :=
  ⟨⟨rfl, rfl, rfl, by decide, by decide, by decide⟩,
   c3_erase engC3 ⟨1, [10]⟩ ⟨3, [10]⟩ 4 1 3 rfl rfl rfl (by decide) (by decide) (by decide)⟩

/-- C4: `erase_unsorted(pos)` shrinks the size by one; in every column the
erased slot now holds the value that was in the last slot, every other live
slot is unchanged, and the remaining live contents are a permutation of the
old live contents minus the erased element. -/

theorem c4_erase_unsorted {α : Type} (e : Engine α) (pos : TupleVecIter) (s p : Nat)
    (hs : e.mNumElements = s) (hp : pos.mIndex = p) (hps : p < s) (hM : p < szMod) :
    (erase_unsorted e pos).1.mNumElements = s - 1 ∧
    (erase_unsorted e pos).1.mNumCapacity = e.mNumCapacity ∧
    (∀ i lf lf0,
        (erase_unsorted e pos).1.cols.get? i = some lf →
        e.cols.get? i = some lf0 →
        lf.d p = lf0.d (s - 1) ∧
        (∀ j, j < s - 1 → j ≠ p → lf.d j = lf0.d j) ∧
        List.Perm (liveList (s - 1) lf.d) ((liveList s lf0.d).eraseIdx p)) := by
  have hfi : iterDiff pos (beginIter e) = p := by
    rw [iterDiff_begin e pos (by omega), hp]
  have hred0 : (erase_unsorted e pos).1 = { e with
      mNumElements := e.mNumElements - 1,
      cols := e.cols.map fun lf => { lf with d := stdMove lf.d (e.mNumElements - 1) (iterDiff pos (beginIter e)) 1 } } := rfl
  have hred : (erase_unsorted e pos).1 = { e with
      mNumElements := s - 1,
      cols := e.cols.map fun lf =>
        { lf with d := stdMove lf.d (s - 1) p 1 } } := by
    rw [hred0, hfi, hs]
  rw [hred]
  refine ⟨rfl, rfl, ?_⟩
  intro i lf lf0 hlf hlf0
  rw [List.get?_map, hlf0, Option.map_some'] at hlf
  injection hlf with hlf
  rw [← hlf]
  refine ⟨?_, ?_, erase_unsorted_perm lf0.d s p hps⟩
  · show stdMove lf0.d (s - 1) p 1 p = lf0.d (s - 1)
    rw [stdMove_spec _ _ _ _ (Or.inl (by omega)), if_pos (by omega)]
    have harg : s - 1 + (p - p) = s - 1 := by omega
    rw [harg]
  · intro j hj hjp
    show stdMove lf0.d (s - 1) p 1 j = lf0.d j
    rw [stdMove_spec _ _ _ _ (Or.inl (by omega)), if_neg (by omega)]

theorem c4_erase_unsorted_witness :
    (engC4.mNumElements = 3 ∧ (⟨0, [10]⟩ : TupleVecIter).mIndex = 0 ∧
      0 < 3 ∧ 0 < szMod) ∧
    ((erase_unsorted engC4 ⟨0, [10]⟩).1.mNumElements = 3 - 1 ∧
      (erase_unsorted engC4 ⟨0, [10]⟩).1.mNumCapacity = engC4.mNumCapacity ∧
      (∀ i lf lf0,
          (erase_unsorted engC4 ⟨0, [10]⟩).1.cols.get? i = some lf →
          engC4.cols.get? i = some lf0 →
          lf.d 0 = lf0.d (3 - 1) ∧
          (∀ j, j < 3 - 1 → j ≠ 0 → lf.d j = lf0.d j) ∧
          List.Perm (liveList (3 - 1) lf.d) ((liveList 3 lf0.d).eraseIdx 0))) ∧
    liveList 2 ((erase_unsorted engC4 ⟨0, [10]⟩).1.cols.getD 0 (Leaf.mk 0 colC4)).d =
      [30, 20] :=
  ⟨⟨rfl, rfl, by decide, by decide⟩,
   c4_erase_unsorted engC4 ⟨0, [10]⟩ 3 0 rfl rfl (by decide) (by decide),
   by decide⟩

/-- C5: non-reallocating `insert(pos, n, args...)` at position `p ≤ s`
yields size `s + n`; in every column the live contents become the old
prefix below `p`, then `n` copies of that column's fill value, then the old
suffix from `p` — all columns take the same strategy branch, which depends
only on the shared `(pos, n, size)`.  Capacity and allocation are
untouched. -/

theorem c5_insert {α : Type} (e : Engine α) (pos : TupleVecIter) (n : Nat)
    (vals : List α) (aid : Nat) (fp : List Nat) (fb : List (Nat → α)) (s p : Nat)
    (hs : e.mNumElements = s) (hp : pos.mIndex = p) (hM : p < szMod)
    (hps : p ≤ s) (hcap : s + n ≤ e.mNumCapacity) :
    (insert e pos n vals aid fp fb).1.mNumElements = s + n ∧
    (insert e pos n vals aid fp fb).1.mNumCapacity = e.mNumCapacity ∧
    (insert e pos n vals aid fp fb).1.mpData = e.mpData ∧
    (insert e pos n vals aid fp fb).1.freed = e.freed ∧
    (∀ i lf lf0 v,
        (insert e pos n vals aid fp fb).1.cols.get? i = some lf →
        e.cols.get? i = some lf0 → vals.get? i = some v →
        liveList (s + n) lf.d =
          (liveList s lf0.d).take p ++ List.replicate n v ++
            (liveList s lf0.d).drop p) := by
  have hfi : iterDiff pos (beginIter e) = p := by
    rw [iterDiff_begin e pos (by omega), hp]
  by_cases hpe : p = s
  · have hred : (insert e pos n vals aid fp fb).1 = { e with
        mNumElements := s + n,
        cols := (e.cols.zip vals).map fun q =>
          { q.1 with d := fillN q.1.d s q.2 (s + n - s) } } := by
      simp only [insert]
      rw [hfi, hs]
      rw [if_neg (show ¬(s + n > e.mNumCapacity ∨ p ≠ s) by omega)]
    rw [hred]
    refine ⟨rfl, rfl, rfl, rfl, ?_⟩
    intro i lf lf0 v hlf hlf0 hv
    rw [List.get?_map] at hlf
    rcases Option.map_eq_some'.mp hlf with ⟨q, hq, hF⟩
    rcases (List.get?_zip_eq_some _ _ _ _).mp hq with ⟨hq1, hq2⟩
    rw [hlf0] at hq1
    rw [hv] at hq2
    have hq1x : lf0 = q.1 := Option.some_inj.mp hq1
    have hq2x : v = q.2 := Option.some_inj.mp hq2
    rw [← hF]
    show liveList (s + n) (fillN q.1.d s q.2 (s + n - s)) = _
    rw [← hq1x, ← hq2x]
    have hc : s + n - s = n := by omega
    rw [hc, fillN_liveList, hpe, liveList_take_all, liveList_drop_all,
      List.append_nil]
  · have hred : (insert e pos n vals aid fp fb).1 = { e with
        mNumElements := s + n,
        cols := (e.cols.zip vals).map fun q =>
          { q.1 with d := DoInsertAndFill q.1.d p n s q.2 } } := by
      simp only [insert]
      rw [hfi, hs]
      rw [if_pos (Or.inr hpe), if_neg (show ¬(s + n > e.mNumCapacity) by omega)]
    rw [hred]
    refine ⟨rfl, rfl, rfl, rfl, ?_⟩
    intro i lf lf0 v hlf hlf0 hv
    rw [List.get?_map] at hlf
    rcases Option.map_eq_some'.mp hlf with ⟨q, hq, hF⟩
    rcases (List.get?_zip_eq_some _ _ _ _).mp hq with ⟨hq1, hq2⟩
    rw [hlf0] at hq1
    rw [hv] at hq2
    have hq1x : lf0 = q.1 := Option.some_inj.mp hq1
    have hq2x : v = q.2 := Option.some_inj.mp hq2
    rw [← hF]
    show liveList (s + n) (DoInsertAndFill q.1.d p n s q.2) = _
    rw [← hq1x, ← hq2x]
    exact DoInsertAndFill_segMap lf0.d s p n v hps

theorem c5_insert_witness :
    (engC5.mNumElements = 3 ∧ (⟨1, [10]⟩ : TupleVecIter).mIndex = 1 ∧
      1 < szMod ∧ 1 ≤ 3 ∧ 3 + 2 ≤ engC5.mNumCapacity) ∧
    ((insert engC5 ⟨1, [10]⟩ 2 [99] 9 [] []).1.mNumElements = 3 + 2 ∧
      (insert engC5 ⟨1, [10]⟩ 2 [99] 9 [] []).1.mNumCapacity = engC5.mNumCapacity ∧
      (insert engC5 ⟨1, [10]⟩ 2 [99] 9 [] []).1.mpData = engC5.mpData ∧
      (insert engC5 ⟨1, [10]⟩ 2 [99] 9 [] []).1.freed = engC5.freed ∧
      (∀ i lf lf0 v,
          (insert engC5 ⟨1, [10]⟩ 2 [99] 9 [] []).1.cols.get? i = some lf →
          engC5.cols.get? i = some lf0 → ([99] : List Nat).get? i = some v →
          liveList (3 + 2) lf.d =
            (liveList 3 lf0.d).take 1 ++ List.replicate 2 v ++
              (liveList 3 lf0.d).drop 1)) ∧
    liveList 5 ((insert engC5 ⟨1, [10]⟩ 2 [99] 9 [] []).1.cols.getD 0
      (Leaf.mk 0 colC4)).d = [10, 99, 99, 20, 30] :=
  ⟨⟨rfl, rfl, by decide, by decide, by decide⟩,
   c5_insert engC5 ⟨1, [10]⟩ 2 [99] 9 [] [] 3 1 rfl rfl (by decide) (by decide)
     (by decide),
   by decide⟩

end TupleVector
